import Mathlib

/-!
Verification development for the symspellrs repository (a SymSpell-style
approximate string matcher).  The Rust sources are shallowly embedded here:

* Rust String values are modelled as lists of Unicode scalar values
  (the type Str below); UTF-8 byte positions are recovered through byteSize /
  byteLen, because the source indexes strings by bytes.
* Rust String.remove takes a byte index and panics when the index is not a
  character boundary (or is out of range).  Fallible computations are
  modelled with Except Unit; .error () models a panic.
* HashMap / HashSet contents are modelled as functions into Option / lists
  used as finite sets; a hash set's iteration order is not determined by its
  contents, so loops that iterate over a freshly built HashSet take the
  enumeration as an explicit parameter, constrained to be a permutation of
  the set's elements (ValidEnum below).
* Rust's sort_by is a stable sort; a stable sort's output is uniquely
  determined by the comparison and the input order, so it is modelled by a
  stable insertion sort (sortS below).
-/

namespace SymSpellRS

/-- Strings as lists of Unicode scalar values (Rust chars). -/
abbrev Str := List Char

/-- UTF-8 encoded length of one character, as in Rust char::len_utf8. -/
def byteSize (c : Char) : Nat :=
  if c.toNat < 128 then 1
  else if c.toNat < 2048 then 2
  else if c.toNat < 65536 then 3
  else 4

/-- UTF-8 byte length of a string (Rust String::len). -/
def byteLen (s : Str) : Nat := (s.map byteSize).sum

/-- Rust String::remove(i): remove the character starting at byte index i.
Returns none (a panic) when i is not on a character boundary or i is not
less than the byte length. -/
def removeByteAt : Str → Nat → Option Str
  | [], _ => none
  | _ :: cs, 0 => some cs
  | c :: cs, i + 1 =>
    if i + 1 < byteSize c then none
    else (removeByteAt cs (i + 1 - byteSize c)).map (fun t => c :: t)

/-- One pass of the Rust pattern: for i in 0..s.len() do s.clone().remove(i).
Produces the list of all one-character deletions of s in byte-index order;
errors (panics) when some byte index inside s is not a character boundary. -/
def oneDelsAux (s : Str) : List Nat → Except Unit (List Str)
  | [] => .ok []
  | i :: is =>
    match removeByteAt s i with
    | none => .error ()
    | some t =>
      match oneDelsAux s is with
      | .error e => .error e
      | .ok ts => .ok (t :: ts)

def oneDels (s : Str) : Except Unit (List Str) := oneDelsAux s (List.range (byteLen s))

/-- Insert a newly generated deletion t: if it is new to the accumulated set
acc.1 (the Rust deletes HashSet), record it there and in the level's next
set acc.2.  Sets are lists whose membership is what matters. -/
def pushNew (acc : List Str × List Str) (t : Str) : List Str × List Str :=
  if t ∈ acc.1 then acc else (acc.1 ++ [t], acc.2 ++ [t])

/-- One level of generate_deletes: process every string in the queue,
skipping empty strings, generating all its one-character deletions. -/
def genLevel : List Str → List Str × List Str → Except Unit (List Str × List Str)
  | [], acc => .ok acc
  | s :: rest, acc =>
    if s = [] then genLevel rest acc
    else
      match oneDels s with
      | .error e => .error e
      | .ok ts => genLevel rest (ts.foldl pushNew acc)

/-- The level loop of generate_deletes: for _d in 0..max_distance, with an
early break when a level yields no new variants. -/
def genLoop : Nat → List Str → List Str → Except Unit (List Str)
  | 0, _, dels => .ok dels
  | n + 1, queue, dels =>
    match genLevel queue (dels, []) with
    | .error e => .error e
    | .ok (dels', next) => if next = [] then .ok dels' else genLoop n next dels'

/-- Embedding of generate_deletes from src/symspell.rs: all deletion variants
of word reachable by 1..=maxDist single-character deletions.  The BTreeSet
queue is modelled as a deduplicated list; only set membership is used. -/
def generate_deletes (word : Str) (maxDist : Nat) : Except Unit (List Str) :=
  genLoop maxDist [word] []

/-- The SymSpell store: dictionary word -> frequency and deletion index
variant -> set of originating words (a list used as a set). -/
structure SymSpell where
  max_distance : Nat
  dictionary : Str → Option Nat
  deletes : Str → List Str

def SymSpell.new (maxDist : Nat) : SymSpell :=
  { max_distance := maxDist, dictionary := fun _ => none, deletes := fun _ => [] }

/-- HashSet::insert on a list-as-set. -/
def dedupInsert (l : List Str) (w : Str) : List Str := if w ∈ l then l else l ++ [w]

/-- One iteration of the load_iter loop body: skip empty words, insert or
replace the dictionary frequency, and add the word to the candidate set of
each of its deletion variants.  (Rust updates the dictionary before
generating deletions; on success the final state is the same.) -/
def loadEntry (st : SymSpell) (w : Str) (f : Nat) : Except Unit SymSpell :=
  if w = [] then .ok st
  else
    match generate_deletes w st.max_distance with
    | .error e => .error e
    | .ok dels =>
      .ok { max_distance := st.max_distance
            dictionary := fun x => if x = w then some f else st.dictionary x
            deletes := fun v => if v ∈ dels then dedupInsert (st.deletes v) w else st.deletes v }

/-- Embedding of SymSpell::load_iter. -/
def load_iter : SymSpell → List (Str × Nat) → Except Unit SymSpell
  | st, [] => .ok st
  | st, (w, f) :: rest =>
    match loadEntry st w f with
    | .error e => .error e
    | .ok st' => load_iter st' rest

/-- Embedding of SymSpell::from_iter. -/
def from_iter (maxDist : Nat) (entries : List (Str × Nat)) : Except Unit SymSpell :=
  load_iter (SymSpell.new maxDist) entries

/-- Embedding of SymSpell::frequency. -/
def SymSpell.frequency (st : SymSpell) (w : Str) : Option Nat := st.dictionary w

/-- States a SymSpell value can actually be in: produced by new and extended
by successful load_iter calls (from_iter is new followed by load_iter). -/
inductive Reachable : SymSpell → Prop
  | new (n : Nat) : Reachable (SymSpell.new n)
  | load (st : SymSpell) (entries : List (Str × Nat)) (st' : SymSpell) :
      Reachable st → load_iter st entries = .ok st' → Reachable st'

/-- Substitution cost of the DP in damerau_levenshtein (0-based indices into
the character sequences; the default is never consulted at indices the
top-level call reaches). -/
def dlCost (A B : Str) (i j : Nat) : Nat := if A.getD i 'a' = B.getD j 'a' then 0 else 1

/-- Fuel-indexed form of the dynamic program of damerau_levenshtein.
dpF f i j agrees with the table entry dp[i][j] of the Rust code whenever
i + j ≤ f (see dpF_fuel_irrel); the fuel makes the recursion structural. -/
def dpF (A B : Str) : Nat → Nat → Nat → Nat
  | _, i, 0 => i
  | _, 0, j + 1 => j + 1
  | 0, _ + 1, _ + 1 => 0
  | f + 1, i + 1, j + 1 =>
    if 1 ≤ i ∧ 1 ≤ j ∧ A.getD i 'a' = B.getD (j - 1) 'a' ∧ A.getD (i - 1) 'a' = B.getD j 'a'
    then
      min (min (min (dpF A B f i (j + 1) + 1) (dpF A B f (i + 1) j + 1))
        (dpF A B f i j + dlCost A B i j)) (dpF A B f (i - 1) (j - 1) + 1)
    else
      min (min (dpF A B f i (j + 1) + 1) (dpF A B f (i + 1) j + 1))
        (dpF A B f i j + dlCost A B i j)

/-- The DP table entry dp[i][j] of damerau_levenshtein. -/
def dp (A B : Str) (i j : Nat) : Nat := dpF A B (i + j) i j

/-- Embedding of damerau_levenshtein from src/symspell.rs: restricted
Damerau-Levenshtein (optimal string alignment) over Unicode scalar values,
clamped at 255 (the u8 cap). -/
def damerau_levenshtein (a b : Str) : Nat :=
  if a.length = 0 then min b.length 255
  else if b.length = 0 then min a.length 255
  else min (dp a b a.length b.length) 255

/-- A candidate suggestion returned by lookup. -/
structure Suggestion where
  term : Str
  frequency : Nat
  distance : Nat
deriving DecidableEq

inductive Verbosity
  | Top
  | Closest
  | All
deriving DecidableEq

/-- The deletion variants of the query that lookup actually probes against
the index.  In the source, for idx in 0..queue.len() evaluates queue.len()
once, on the initial queue vec![term], so exactly the initial element is
processed: only the query term itself is ever probed. -/
def probedVariants (term : Str) : List Str := [term]

/-- Contents of the candidates HashSet built during lookup: the union of the
index entries of every probed variant. -/
def candidateSet (st : SymSpell) (term : Str) : List Str :=
  (probedVariants term).foldl (fun acc v => acc ++ st.deletes v) []

/-- A possible iteration order of the candidates HashSet: any duplicate-free
enumeration of its contents. -/
def ValidEnum (st : SymSpell) (term : Str) (order : List Str) : Prop :=
  order.Perm (candidateSet st term).dedup

instance (st : SymSpell) (term : Str) (order : List Str) :
    Decidable (ValidEnum st term order) :=
  List.decidablePerm order (candidateSet st term).dedup

/-- The push half of the loop body at the probed variant: generate all
one-character deletions of current (they are pushed onto the queue but never
processed, since the loop bound was fixed at 1); the byte-indexed remove can
still panic. -/
def expandPush (e : Nat) (current : Str) : Except Unit Unit :=
  if 1 < byteLen current ∧ 0 < e then
    match oneDels current with
    | .error er => .error er
    | .ok _ => .ok ()
  else .ok ()

/-- The candidate verification loop of SymSpell::lookup: iterate the
candidates in the given order, skip candidates already considered, compute
the true distance and keep those within the bound.  The frequency of a
candidate absent from the dictionary defaults to 0. -/
def verifyLoop (dict : Str → Option Nat) (term : Str) (e : Nat) :
    List Str → List Str → List Suggestion
  | [], _ => []
  | c :: cs, seen =>
    if c ∈ seen then verifyLoop dict term e cs seen
    else if damerau_levenshtein term c ≤ e then
      { term := c, frequency := (dict c).getD 0, distance := damerau_levenshtein term c } ::
        verifyLoop dict term e cs (c :: seen)
    else verifyLoop dict term e cs (c :: seen)

/-- Comparison used for Verbosity::All: distance ascending, then frequency
descending (Rust a.distance.cmp(b).then(b.frequency.cmp(a)) is not Greater). -/
def leAll (a b : Suggestion) : Bool :=
  decide (a.distance < b.distance ∨ (a.distance = b.distance ∧ b.frequency ≤ a.frequency))

/-- Comparison used for Verbosity::Closest: frequency descending. -/
def leFreq (a b : Suggestion) : Bool := decide (b.frequency ≤ a.frequency)

/-- Stable insertion used by sortS. -/
def insertS (le : Suggestion → Suggestion → Bool) (x : Suggestion) :
    List Suggestion → List Suggestion
  | [] => [x]
  | y :: ys => if le x y then x :: y :: ys else y :: insertS le x ys

/-- Stable insertion sort; for a total comparison this computes the unique
stable sort, hence coincides with Rust's stable sort_by. -/
def sortS (le : Suggestion → Suggestion → Bool) : List Suggestion → List Suggestion
  | [] => []
  | x :: xs => insertS le x (sortS le xs)

/-- results.iter().map(distance).min().unwrap_or(u8::MAX). -/
def minDist (results : List Suggestion) : Nat :=
  ((results.map Suggestion.distance).min?).getD 255

/-- The Verbosity::Top accumulator: keep the first seen suggestion among
ties, replace only on strictly larger frequency. -/
def pickTop : Option Suggestion → Suggestion → Option Suggestion
  | none, r => some r
  | some b, r => if r.frequency > b.frequency then some r else some b

/-- The verbosity-driven selection performed at the end of both lookups. -/
def selectResults (v : Verbosity) (results : List Suggestion) : List Suggestion :=
  if results = [] then []
  else
    let mind := minDist results
    match v with
    | .Top => ((results.filter (fun r => r.distance = mind)).foldl pickTop none).toList
    | .Closest => sortS leFreq (results.filter (fun r => r.distance = mind))
    | .All => sortS leAll results

/-- Embedding of SymSpell::lookup, parameterised by the iteration order of
the candidates HashSet (see ValidEnum).  The requested distance is capped by
the configured maximum; the exact dictionary entry is pushed first. -/
def SymSpell.lookupOrd (st : SymSpell) (term : Str) (maxDist : Nat) (v : Verbosity)
    (order : List Str) : Except Unit (List Suggestion) :=
  if term = [] then .ok []
  else
    let e := min maxDist st.max_distance
    match expandPush e term with
    | .error er => .error er
    | .ok _ =>
      let exact : List Suggestion :=
        match st.dictionary term with
        | some f => [{ term := term, frequency := f, distance := 0 }]
        | none => []
      .ok (selectResults v (exact ++ verifyLoop st.dictionary term e order []))

/-- SymSpell::lookup at one concrete (canonical) candidate enumeration. -/
def SymSpell.lookup (st : SymSpell) (term : Str) (maxDist : Nat) (v : Verbosity) :
    Except Unit (List Suggestion) :=
  st.lookupOrd term maxDist v (candidateSet st term).dedup

/-- The PHF-backed store emitted by the include_dictionary macro. -/
structure EmbeddedSymSpell where
  max_distance : Nat
  dict : Str → Option Nat
  deletes : Str → List Str

def EmbeddedSymSpell.frequency (st : EmbeddedSymSpell) (w : Str) : Option Nat := st.dict w

def ecandidateSet (st : EmbeddedSymSpell) (term : Str) : List Str :=
  (probedVariants term).foldl (fun acc v => acc ++ st.deletes v) []

def EValidEnum (st : EmbeddedSymSpell) (term : Str) (order : List Str) : Prop :=
  order.Perm (ecandidateSet st term).dedup

instance (st : EmbeddedSymSpell) (term : Str) (order : List Str) :
    Decidable (EValidEnum st term order) :=
  List.decidablePerm order (ecandidateSet st term).dedup

/-- The candidate verification loop of EmbeddedSymSpell::lookup (it has no
considered set; candidates are enumerated from a HashSet, so each appears
once in a valid enumeration). -/
def verifyAll (dict : Str → Option Nat) (term : Str) (e : Nat) :
    List Str → List Suggestion
  | [] => []
  | c :: cs =>
    if damerau_levenshtein term c ≤ e then
      { term := c, frequency := (dict c).getD 0, distance := damerau_levenshtein term c } ::
        verifyAll dict term e cs
    else verifyAll dict term e cs

/-- Embedding of EmbeddedSymSpell::lookup.  Unlike SymSpell::lookup it
returns immediately on an exact dictionary hit, before any index probing. -/
def EmbeddedSymSpell.lookupOrd (st : EmbeddedSymSpell) (term : Str) (maxDist : Nat)
    (v : Verbosity) (order : List Str) : Except Unit (List Suggestion) :=
  if term = [] then .ok []
  else
    let e := min maxDist st.max_distance
    match st.dict term with
    | some f => .ok [{ term := term, frequency := f, distance := 0 }]
    | none =>
      match expandPush e term with
      | .error er => .error er
      | .ok _ => .ok (selectResults v (verifyAll st.dict term e order))

/-- EmbeddedSymSpell::lookup at the canonical candidate enumeration. -/
def EmbeddedSymSpell.lookup (st : EmbeddedSymSpell) (term : Str) (maxDist : Nat)
    (v : Verbosity) : Except Unit (List Suggestion) :=
  st.lookupOrd term maxDist v (ecandidateSet st term).dedup

/-- Dictionary construction of the include_dictionary macro (macros/src/lib.rs
lines 187-188): *dict.entry(word).or_insert(0) += freq, i.e. duplicate words
have their frequencies summed. -/
def buildDict (entries : List (Str × Nat)) : Str → Option Nat :=
  entries.foldl
    (fun d wf => fun x => if x = wf.1 then some ((d wf.1).getD 0 + wf.2) else d x)
    (fun _ => none)

/-- Per-word precomputation of the macro's deletion index, also counting the
total number of generated deletion entries.  Word order (BTreeMap order in
the source) only affects the order inside each candidate list, which is
consumed as a set. -/
def buildEmbAux (maxDist : Nat) : List Str → (Str → List Str) → Nat →
    Except Unit ((Str → List Str) × Nat)
  | [], m, tot => .ok (m, tot)
  | w :: ws, m, tot =>
    match generate_deletes w maxDist with
    | .error e => .error e
    | .ok dels =>
      buildEmbAux maxDist ws (fun v => if v ∈ dels then m v ++ [w] else m v) (tot + dels.length)

/-- Embedding of the include_dictionary macro's precompute path: sum
duplicate frequencies into the dictionary, precompute the deletion index per
distinct word, and abort when the index would exceed maxDeletes entries. -/
def include_dictionary (entries : List (Str × Nat)) (maxDist maxDeletes : Nat) :
    Except Unit EmbeddedSymSpell :=
  match buildEmbAux maxDist ((entries.map Prod.fst).dedup) (fun _ => []) 0 with
  | .error e => .error e
  | .ok (m, tot) =>
    if maxDeletes < tot then .error ()
    else .ok { max_distance := maxDist, dict := buildDict entries, deletes := m }

/-! ### Basic facts about byte-indexed removal and deletion generation -/

theorem removeByteAt_length :
    ∀ (s : Str) (i : Nat) (t : Str), removeByteAt s i = some t → t.length + 1 = s.length := by
  intro s
  induction s with
  | nil => intro i t h; simp [removeByteAt] at h
  | cons c cs ih =>
    intro i t h
    cases i with
    | zero =>
      simp only [removeByteAt] at h
      cases h
      simp
    | succ i =>
      simp only [removeByteAt] at h
      split at h
      · simp at h
      · rcases Option.map_eq_some'.mp h with ⟨t', ht', rfl⟩
        simp [← ih _ _ ht']

theorem oneDelsAux_mem :
    ∀ (is : List Nat) (s : Str) (ts : List Str), oneDelsAux s is = .ok ts →
      ∀ t ∈ ts, ∃ i, removeByteAt s i = some t := by
  intro is
  induction is with
  | nil =>
    intro s ts h t ht
    simp only [oneDelsAux] at h
    cases h
    simp at ht
  | cons i is ih =>
    intro s ts h t ht
    simp only [oneDelsAux] at h
    cases hr : removeByteAt s i with
    | none => rw [hr] at h; exact absurd h (by simp)
    | some u =>
      rw [hr] at h
      cases haux : oneDelsAux s is with
      | error e => rw [haux] at h; exact absurd h (by simp)
      | ok us =>
        rw [haux] at h
        cases h
        rcases List.mem_cons.mp ht with rfl | hmem
        · exact ⟨i, hr⟩
        · exact ih s us haux t hmem

theorem oneDels_length {s : Str} {ts : List Str} (h : oneDels s = .ok ts) :
    ∀ t ∈ ts, t.length + 1 = s.length := by
  intro t ht
  rcases oneDelsAux_mem _ s ts h t ht with ⟨i, hi⟩
  exact removeByteAt_length s i t hi

theorem dedupInsert_mem {l : List Str} {w x : Str} :
    x ∈ dedupInsert l w ↔ x ∈ l ∨ x = w := by
  unfold dedupInsert
  split
  · constructor
    · exact fun h => Or.inl h
    · rintro (h | rfl)
      · exact h
      · assumption
  · simp [List.mem_append]

theorem foldl_pushNew_prop {C : Str → Prop} :
    ∀ (ts : List Str) (acc : List Str × List Str),
      (∀ t ∈ ts, C t) → (∀ x ∈ acc.1, C x) → (∀ x ∈ acc.2, C x) →
      (∀ x ∈ (ts.foldl pushNew acc).1, C x) ∧ (∀ x ∈ (ts.foldl pushNew acc).2, C x) := by
  intro ts
  induction ts with
  | nil => intro acc _ h1 h2; exact ⟨h1, h2⟩
  | cons t ts ih =>
    intro acc hts h1 h2
    simp only [List.foldl_cons]
    apply ih
    · exact fun u hu => hts u (List.mem_cons_of_mem _ hu)
    · intro x hx
      unfold pushNew at hx
      split at hx
      · exact h1 x hx
      · rcases List.mem_append.mp hx with h | h
        · exact h1 x h
        · rcases List.mem_singleton.mp h with rfl
          exact hts x (List.mem_cons_self _ _)
    · intro x hx
      unfold pushNew at hx
      split at hx
      · exact h2 x hx
      · rcases List.mem_append.mp hx with h | h
        · exact h2 x h
        · rcases List.mem_singleton.mp h with rfl
          exact hts x (List.mem_cons_self _ _)

theorem genLevel_prop {C : Str → Prop} :
    ∀ (queue : List Str) (acc out : List Str × List Str),
      genLevel queue acc = .ok out →
      (∀ s ∈ queue, s ≠ [] → ∀ ts, oneDels s = .ok ts → ∀ t ∈ ts, C t) →
      (∀ x ∈ acc.1, C x) → (∀ x ∈ acc.2, C x) →
      (∀ x ∈ out.1, C x) ∧ (∀ x ∈ out.2, C x) := by
  intro queue
  induction queue with
  | nil =>
    intro acc out h _ h1 h2
    simp only [genLevel] at h
    cases h
    exact ⟨h1, h2⟩
  | cons s rest ih =>
    intro acc out h hq h1 h2
    simp only [genLevel] at h
    split at h
    · exact ih acc out h (fun u hu => hq u (List.mem_cons_of_mem _ hu)) h1 h2
    · cases hone : oneDels s with
      | error e => rw [hone] at h; exact absurd h (by simp)
      | ok ts =>
        rw [hone] at h
        have hs : s ∈ s :: rest := List.mem_cons_self _ _
        have hts : ∀ t ∈ ts, C t := hq s hs (by assumption) ts hone
        have hfold := foldl_pushNew_prop ts acc hts h1 h2
        exact ih _ out h (fun u hu => hq u (List.mem_cons_of_mem _ hu)) hfold.1 hfold.2

theorem genLoop_prop {C Q : Str → Prop} (hCQ : ∀ x, C x → Q x)
    (hstep : ∀ s, Q s → s ≠ [] → ∀ ts, oneDels s = .ok ts → ∀ t ∈ ts, C t) :
    ∀ (n : Nat) (queue dels out : List Str),
      (∀ s ∈ queue, Q s) → (∀ x ∈ dels, C x) →
      genLoop n queue dels = .ok out → ∀ x ∈ out, C x := by
  intro n
  induction n with
  | zero =>
    intro queue dels out _ hd h
    simp only [genLoop] at h
    cases h
    exact hd
  | succ n ih =>
    intro queue dels out hQ hd h
    simp only [genLoop] at h
    cases hl : genLevel queue (dels, []) with
    | error e => rw [hl] at h; exact absurd h (by simp)
    | ok acc =>
      obtain ⟨dels', next⟩ := acc
      rw [hl] at h
      have hlev := genLevel_prop queue (dels, []) (dels', next) hl
        (fun s hs hne ts hts => hstep s (hQ s hs) hne ts hts) hd (by simp)
      simp only at h
      split at h
      · cases h; exact hlev.1
      · exact ih next dels' out (fun s hs => hCQ s (hlev.2 s hs)) hlev.1 h

theorem generate_deletes_length {w : Str} {maxDist : Nat} {dels : List Str}
    (h : generate_deletes w maxDist = .ok dels) : ∀ x ∈ dels, x.length < w.length := by
  refine genLoop_prop (C := fun x => x.length < w.length) (Q := fun x => x.length ≤ w.length)
    (fun x hx => Nat.le_of_lt hx) ?_ maxDist [w] [] dels ?_ (by simp) h
  · intro s hs hne ts hts t ht
    have := oneDels_length hts t ht
    omega
  · intro s hs
    rcases List.mem_singleton.mp hs with rfl
    exact Nat.le_refl _

theorem generate_deletes_oneDels {w : Str} {n : Nat} {dels : List Str}
    (h : generate_deletes w (n + 1) = .ok dels) (hne : w ≠ []) : (oneDels w).isOk := by
  unfold generate_deletes genLoop at h
  unfold genLevel at h
  rw [if_neg hne] at h
  cases hone : oneDels w with
  | error e => rw [hone] at h; simp at h
  | ok ts => simp [Except.isOk, Except.toBool]

/-! ### The reachable-state invariant -/

/-- Invariant of every store reachable through new / load_iter:
every indexed word is a dictionary key, every indexed word is strictly
longer than its deletion variant, and (when deletions are generated at all)
every dictionary word survives the byte-indexed one-deletion loop. -/
def StoreInv (st : SymSpell) : Prop :=
  (∀ v w, w ∈ st.deletes v → (st.dictionary w).isSome) ∧
  (∀ v w, w ∈ st.deletes v → v.length < w.length) ∧
  (∀ w, (st.dictionary w).isSome → 0 < st.max_distance → (oneDels w).isOk) ∧
  st.dictionary [] = none

theorem loadEntry_inv {st st' : SymSpell} {w : Str} {f : Nat}
    (hinv : StoreInv st) (h : loadEntry st w f = .ok st') : StoreInv st' := by
  unfold loadEntry at h
  split at h
  · cases h; exact hinv
  · cases hg : generate_deletes w st.max_distance with
    | error e => rw [hg] at h; exact absurd h (by simp)
    | ok dels =>
      rw [hg] at h
      cases h
      obtain ⟨h1, h2, h3, h4⟩ := hinv
      refine ⟨?_, ?_, ?_, ?_⟩
      · intro v x hx
        simp only at hx ⊢
        split at hx
        · rcases dedupInsert_mem.mp hx with hold | rfl
          · have := h1 v x hold
            split
            · simp
            · exact this
          · simp
        ·
          have := h1 v x hx
          split
          · simp
          · exact this
      · intro v x hx
        simp only at hx
        split at hx
        · rcases dedupInsert_mem.mp hx with hold | rfl
          · exact h2 v x hold
          · exact generate_deletes_length hg v (by assumption)
        · exact h2 v x hx
      · intro x hx hpos
        simp only at hx hpos ⊢
        split at hx
        · rcases Nat.exists_eq_add_of_lt hpos with ⟨n, hn⟩
          have hgen : generate_deletes w (n + 1) = .ok dels := by
            rw [← hg]; congr 1; omega
          subst x
          exact generate_deletes_oneDels hgen (by assumption)
        · exact h3 x hx hpos
      · simp only
        rw [if_neg (by intro hc; exact absurd hc.symm (by assumption))]
        exact h4

theorem load_iter_inv :
    ∀ (entries : List (Str × Nat)) (st st' : SymSpell),
      StoreInv st → load_iter st entries = .ok st' → StoreInv st' := by
  intro entries
  induction entries with
  | nil => intro st st' hinv h; simp only [load_iter] at h; cases h; exact hinv
  | cons e rest ih =>
    intro st st' hinv h
    simp only [load_iter] at h
    cases hl : loadEntry st e.1 e.2 with
    | error er => rw [hl] at h; exact absurd h (by simp)
    | ok st₁ =>
      rw [hl] at h
      exact ih st₁ st' (loadEntry_inv hinv hl) h

theorem reachable_inv {st : SymSpell} (h : Reachable st) : StoreInv st := by
  induction h with
  | new n =>
    refine ⟨?_, ?_, ?_, ?_⟩
    · intro v w hm; simp [SymSpell.new] at hm
    · intro v w hm; simp [SymSpell.new] at hm
    · intro w hm hp; simp [SymSpell.new] at hm
    · rfl
  | load st entries st' _ hload ih => exact load_iter_inv entries st st' ih hload

/-! ### Facts about the distance dynamic program -/

theorem dpF_right_zero (A B : Str) (f i : Nat) : dpF A B f i 0 = i := by
  cases f <;> cases i <;> rfl

theorem dpF_left_zero (A B : Str) (f j : Nat) : dpF A B f 0 j = j := by
  cases f <;> cases j <;> rfl

theorem dpF_succ (A B : Str) (f i j : Nat) :
    dpF A B (f + 1) (i + 1) (j + 1) =
      if 1 ≤ i ∧ 1 ≤ j ∧ A.getD i 'a' = B.getD (j - 1) 'a' ∧ A.getD (i - 1) 'a' = B.getD j 'a'
      then
        min (min (min (dpF A B f i (j + 1) + 1) (dpF A B f (i + 1) j + 1))
          (dpF A B f i j + dlCost A B i j)) (dpF A B f (i - 1) (j - 1) + 1)
      else
        min (min (dpF A B f i (j + 1) + 1) (dpF A B f (i + 1) j + 1))
          (dpF A B f i j + dlCost A B i j) := rfl

theorem dpF_irrel (A B : Str) :
    ∀ (f g i j : Nat), i + j ≤ f → i + j ≤ g → dpF A B f i j = dpF A B g i j := by
  intro f
  induction f with
  | zero =>
    intro g i j hf _
    have hi : i = 0 := by omega
    have hj : j = 0 := by omega
    subst hi; subst hj
    rw [dpF_right_zero, dpF_right_zero]
  | succ f ih =>
    intro g i j hf hg
    cases i with
    | zero => rw [dpF_left_zero, dpF_left_zero]
    | succ i =>
      cases j with
      | zero => rw [dpF_right_zero, dpF_right_zero]
      | succ j =>
        cases g with
        | zero => omega
        | succ g =>
          rw [dpF_succ, dpF_succ,
            ih g i (j + 1) (by omega) (by omega),
            ih g (i + 1) j (by omega) (by omega),
            ih g i j (by omega) (by omega),
            ih g (i - 1) (j - 1) (by omega) (by omega)]

theorem dp_right_zero (A B : Str) (i : Nat) : dp A B i 0 = i := dpF_right_zero A B (i + 0) i

theorem dp_left_zero (A B : Str) (j : Nat) : dp A B 0 j = j := dpF_left_zero A B (0 + j) j

theorem dp_rec (A B : Str) (i j : Nat) :
    dp A B (i + 1) (j + 1) =
      if 1 ≤ i ∧ 1 ≤ j ∧ A.getD i 'a' = B.getD (j - 1) 'a' ∧ A.getD (i - 1) 'a' = B.getD j 'a'
      then
        min (min (min (dp A B i (j + 1) + 1) (dp A B (i + 1) j + 1))
          (dp A B i j + dlCost A B i j)) (dp A B (i - 1) (j - 1) + 1)
      else
        min (min (dp A B i (j + 1) + 1) (dp A B (i + 1) j + 1))
          (dp A B i j + dlCost A B i j) := by
  show dpF A B (i + 1 + (j + 1)) (i + 1) (j + 1) = _
  rw [show i + 1 + (j + 1) = (i + 1 + j) + 1 by omega, dpF_succ,
    dpF_irrel A B (i + 1 + j) (i + (j + 1)) i (j + 1) (by omega) (by omega),
    dpF_irrel A B (i + 1 + j) (i + 1 + j) (i + 1) j (by omega) (by omega),
    dpF_irrel A B (i + 1 + j) (i + j) i j (by omega) (by omega),
    dpF_irrel A B (i + 1 + j) (i - 1 + (j - 1)) (i - 1) (j - 1) (by omega) (by omega)]
  rfl

theorem dp_symm (A B : Str) : ∀ (n i j : Nat), i + j = n → dp A B i j = dp B A j i := by
  intro n
  induction n using Nat.strong_induction_on with
  | _ n ih =>
    intro i j hn
    cases i with
    | zero => rw [dp_left_zero, dp_right_zero]
    | succ i =>
      cases j with
      | zero => rw [dp_right_zero, dp_left_zero]
      | succ j =>
        rw [dp_rec A B i j, dp_rec B A j i]
        have e1 : dp A B i (j + 1) = dp B A (j + 1) i := ih (i + (j + 1)) (by omega) i (j + 1) rfl
        have e2 : dp A B (i + 1) j = dp B A j (i + 1) := ih (i + 1 + j) (by omega) (i + 1) j rfl
        have e3 : dp A B i j = dp B A j i := ih (i + j) (by omega) i j rfl
        have e4 : dp A B (i - 1) (j - 1) = dp B A (j - 1) (i - 1) :=
          ih (i - 1 + (j - 1)) (by omega) (i - 1) (j - 1) rfl
        have ecost : dlCost A B i j = dlCost B A j i := by
          unfold dlCost
          by_cases hc : A.getD i 'a' = B.getD j 'a'
          · rw [if_pos hc, if_pos hc.symm]
          · rw [if_neg hc, if_neg (fun hcc => hc hcc.symm)]
        rw [e1, e2, e3, e4, ecost]
        have hcond : (1 ≤ i ∧ 1 ≤ j ∧ A.getD i 'a' = B.getD (j - 1) 'a' ∧
            A.getD (i - 1) 'a' = B.getD j 'a') ↔
            (1 ≤ j ∧ 1 ≤ i ∧ B.getD j 'a' = A.getD (i - 1) 'a' ∧
            B.getD (j - 1) 'a' = A.getD i 'a') := by
          constructor
          · rintro ⟨ha, hb, hc, hd⟩; exact ⟨hb, ha, hd.symm, hc.symm⟩
          · rintro ⟨ha, hb, hc, hd⟩; exact ⟨hb, ha, hd.symm, hc.symm⟩
        exact if_congr hcond
          (by rw [Nat.min_comm (dp B A (j + 1) i + 1) (dp B A j (i + 1) + 1)])
          (by rw [Nat.min_comm (dp B A (j + 1) i + 1) (dp B A j (i + 1) + 1)])

theorem dp_self (A : Str) : ∀ (i : Nat), dp A A i i = 0 := by
  intro i
  induction i with
  | zero => exact dp_right_zero A A 0
  | succ i ih =>
    have hcost : dlCost A A i i = 0 := by unfold dlCost; rw [if_pos rfl]
    rw [dp_rec]
    split
    · rw [ih, hcost]
      omega
    · rw [ih, hcost]
      omega

theorem dp_eq_zero (A B : Str) :
    ∀ (n i j : Nat), i + j = n → i ≤ A.length → j ≤ B.length →
      dp A B i j = 0 → A.take i = B.take j := by
  intro n
  induction n using Nat.strong_induction_on with
  | _ n ih =>
    intro i j hn hia hjb hdp
    cases i with
    | zero =>
      rw [dp_left_zero] at hdp
      subst hdp
      rfl
    | succ i =>
      cases j with
      | zero =>
        rw [dp_right_zero] at hdp
        exact absurd hdp (by simp)
      | succ j =>
        rw [dp_rec] at hdp
        have hkey : dp A B i j + dlCost A B i j = 0 := by
          split at hdp <;> omega
        have hd0 : dp A B i j = 0 := by omega
        have hc0 : dlCost A B i j = 0 := by omega
        have hchar : A.getD i 'a' = B.getD j 'a' := by
          by_contra hne
          unfold dlCost at hc0
          rw [if_neg hne] at hc0
          exact absurd hc0 (by simp)
        have htake := ih (i + j) (by omega) i j rfl (by omega) (by omega) hd0
        have hia' : i < A.length := by omega
        have hjb' : j < B.length := by omega
        rw [List.take_succ, List.take_succ, htake,
          List.getElem?_eq_getElem hia', List.getElem?_eq_getElem hjb']
        have hAi : A.getD i 'a' = A[i] := by
          rw [List.getD_eq_getElem?_getD, List.getElem?_eq_getElem hia']
          rfl
        have hBj : B.getD j 'a' = B[j] := by
          rw [List.getD_eq_getElem?_getD, List.getElem?_eq_getElem hjb']
          rfl
        rw [hAi, hBj] at hchar
        rw [hchar]

/-! ### Facts about damerau_levenshtein -/

theorem damerau_self (w : Str) : damerau_levenshtein w w = 0 := by
  unfold damerau_levenshtein
  split
  · omega
  · rw [dp_self]
    omega

theorem damerau_comm (a b : Str) : damerau_levenshtein a b = damerau_levenshtein b a := by
  unfold damerau_levenshtein
  by_cases ha : a.length = 0 <;> by_cases hb : b.length = 0
  · rw [if_pos ha, if_pos hb, ha, hb]
  · rw [if_pos ha, if_neg hb, if_pos ha]
  · rw [if_neg ha, if_pos hb, if_pos hb]
  · rw [if_neg ha, if_neg hb, if_neg hb, if_neg ha,
      dp_symm a b (a.length + b.length) a.length b.length rfl]

theorem damerau_le_255 (a b : Str) : damerau_levenshtein a b ≤ 255 := by
  unfold damerau_levenshtein
  split
  · omega
  · split
    · omega
    · exact Nat.min_le_right _ _

theorem damerau_eq_zero_iff (a b : Str) : damerau_levenshtein a b = 0 ↔ a = b := by
  constructor
  · intro h
    unfold damerau_levenshtein at h
    split at h
    · have hb : b.length = 0 := by omega
      have ha : a.length = 0 := by assumption
      rw [List.length_eq_zero] at ha hb
      rw [ha, hb]
    · split at h
      · have ha : a.length = 0 := by omega
        have hb : b.length = 0 := by assumption
        rw [List.length_eq_zero] at ha hb
        rw [ha, hb]
      · have hdp : dp a b a.length b.length = 0 := by omega
        have := dp_eq_zero a b (a.length + b.length) a.length b.length rfl
          (Nat.le_refl _) (Nat.le_refl _) hdp
        rwa [List.take_length, List.take_length] at this
  · rintro rfl
    exact damerau_self a

/-! ### Facts about the lookup pipeline -/

theorem candidateSet_eq (st : SymSpell) (term : Str) :
    candidateSet st term = st.deletes term := by
  simp [candidateSet, probedVariants]

theorem ecandidateSet_eq (st : EmbeddedSymSpell) (term : Str) :
    ecandidateSet st term = st.deletes term := by
  simp [ecandidateSet, probedVariants]

theorem insertS_perm (le : Suggestion → Suggestion → Bool) (x : Suggestion) :
    ∀ (l : List Suggestion), (insertS le x l).Perm (x :: l) := by
  intro l
  induction l with
  | nil => exact List.Perm.refl _
  | cons y ys ih =>
    unfold insertS
    split
    · exact List.Perm.refl _
    · exact (ih.cons y).trans (List.Perm.swap x y ys)

theorem sortS_perm (le : Suggestion → Suggestion → Bool) :
    ∀ (l : List Suggestion), (sortS le l).Perm l := by
  intro l
  induction l with
  | nil => exact List.Perm.refl _
  | cons x xs ih => exact (insertS_perm le x (sortS le xs)).trans (ih.cons x)

theorem verifyLoop_mem {dict : Str → Option Nat} {term : Str} {e : Nat} :
    ∀ (order seen : List Str) (s : Suggestion), s ∈ verifyLoop dict term e order seen →
      s.term ∈ order ∧ s.distance = damerau_levenshtein term s.term ∧
      s.distance ≤ e ∧ s.frequency = (dict s.term).getD 0 := by
  intro order
  induction order with
  | nil => intro seen s hs; simp [verifyLoop] at hs
  | cons c cs ih =>
    intro seen s hs
    unfold verifyLoop at hs
    split at hs
    · have := ih seen s hs
      exact ⟨List.mem_cons_of_mem _ this.1, this.2⟩
    · split at hs
      · rcases List.mem_cons.mp hs with rfl | hmem
        · exact ⟨List.mem_cons_self _ _, rfl, by assumption, rfl⟩
        · have := ih (c :: seen) s hmem
          exact ⟨List.mem_cons_of_mem _ this.1, this.2⟩
      · have := ih (c :: seen) s hs
        exact ⟨List.mem_cons_of_mem _ this.1, this.2⟩

theorem verifyLoop_terms_sublist {dict : Str → Option Nat} {term : Str} {e : Nat} :
    ∀ (order seen : List Str),
      ((verifyLoop dict term e order seen).map Suggestion.term).Sublist order := by
  intro order
  induction order with
  | nil => intro seen; simp [verifyLoop]
  | cons c cs ih =>
    intro seen
    unfold verifyLoop
    split
    · exact (ih seen).cons c
    · split
      · simpa using (ih (c :: seen)).cons₂ c
      · exact (ih (c :: seen)).cons c

theorem verifyAll_perm {dict : Str → Option Nat} {term : Str} {e : Nat} :
    ∀ {o₁ o₂ : List Str}, o₁.Perm o₂ →
      (verifyAll dict term e o₁).Perm (verifyAll dict term e o₂) := by
  intro o₁ o₂ h
  induction h with
  | nil => exact List.Perm.refl _
  | cons x _ ih =>
    unfold verifyAll
    split
    · exact ih.cons _
    · exact ih
  | swap x y t =>
    by_cases hx : damerau_levenshtein term x ≤ e <;>
      by_cases hy : damerau_levenshtein term y ≤ e
    · simp only [verifyAll, hx, hy, ite_true]
      exact List.Perm.swap _ _ _
    · simp only [verifyAll, hx, hy, ite_true, ite_false]
      exact List.Perm.refl _
    · simp only [verifyAll, hx, hy, ite_true, ite_false]
      exact List.Perm.refl _
    · simp only [verifyAll, hx, hy, ite_false]
      exact List.Perm.refl _
  | trans _ _ ih₁ ih₂ => exact ih₁.trans ih₂

theorem verifyLoop_eq_verifyAll {dict : Str → Option Nat} {term : Str} {e : Nat} :
    ∀ (order seen : List Str), order.Nodup → (∀ c ∈ order, c ∉ seen) →
      verifyLoop dict term e order seen = verifyAll dict term e order := by
  intro order
  induction order with
  | nil => intro seen _ _; rfl
  | cons c cs ih =>
    intro seen hnd hdisj
    have hcs : ∀ u ∈ cs, u ∉ c :: seen := by
      intro u hu
      simp only [List.mem_cons, not_or]
      exact ⟨fun hc => (List.nodup_cons.mp hnd).1 (hc ▸ hu), hdisj u (List.mem_cons_of_mem _ hu)⟩
    unfold verifyLoop verifyAll
    rw [if_neg (hdisj c (List.mem_cons_self _ _))]
    split
    · rw [ih (c :: seen) (List.nodup_cons.mp hnd).2 hcs]
    · exact ih (c :: seen) (List.nodup_cons.mp hnd).2 hcs

theorem foldl_min_perm : ∀ {l₁ l₂ : List Nat}, l₁.Perm l₂ →
    ∀ (a : Nat), l₁.foldl min a = l₂.foldl min a := by
  intro l₁ l₂ h
  induction h with
  | nil => intro a; rfl
  | cons x _ ih => intro a; simp only [List.foldl_cons]; exact ih _
  | swap x y t =>
    intro a
    simp only [List.foldl_cons]
    have : min (min a y) x = min (min a x) y := by omega
    rw [this]
  | trans _ _ ih₁ ih₂ => intro a; rw [ih₁, ih₂]

theorem min?_perm : ∀ {l₁ l₂ : List Nat}, l₁.Perm l₂ → l₁.min? = l₂.min? := by
  intro l₁ l₂ h
  induction h with
  | nil => rfl
  | cons x h ih =>
    show some _ = some _
    exact congrArg some (foldl_min_perm h x)
  | swap x y t =>
    show some ((x :: t).foldl min y) = some ((y :: t).foldl min x)
    simp only [List.foldl_cons]
    have : min y x = min x y := by omega
    rw [this]
  | trans h₁ h₂ ih₁ ih₂ => rw [ih₁, ih₂]

theorem minDist_perm {l₁ l₂ : List Suggestion} (h : l₁.Perm l₂) : minDist l₁ = minDist l₂ := by
  unfold minDist
  rw [min?_perm (h.map Suggestion.distance)]

theorem foldl_min_zero : ∀ (l : List Nat), l.foldl min 0 = 0 := by
  intro l
  induction l with
  | nil => rfl
  | cons x xs ih => simp only [List.foldl_cons, Nat.zero_min]; exact ih

theorem minDist_cons_zero {a : Suggestion} {rest : List Suggestion} (ha : a.distance = 0) :
    minDist (a :: rest) = 0 := by
  unfold minDist
  show (some ((rest.map Suggestion.distance).foldl min a.distance)).getD 255 = 0
  rw [ha, foldl_min_zero]
  rfl

theorem foldl_pickTop_mem : ∀ (l : List Suggestion) (acc : Option Suggestion) (b : Suggestion),
    l.foldl pickTop acc = some b → acc = some b ∨ b ∈ l := by
  intro l
  induction l with
  | nil => intro acc b h; exact Or.inl h
  | cons r rs ih =>
    intro acc b h
    simp only [List.foldl_cons] at h
    rcases ih (pickTop acc r) b h with hstep | hmem
    · cases acc with
      | none => cases hstep; exact Or.inr (List.mem_cons_self _ _)
      | some a =>
        by_cases hfr : r.frequency > a.frequency
        · rw [show pickTop (some a) r = some r from if_pos hfr] at hstep
          cases hstep
          exact Or.inr (List.mem_cons_self _ _)
        · rw [show pickTop (some a) r = some a from if_neg hfr] at hstep
          exact Or.inl hstep
    · exact Or.inr (List.mem_cons_of_mem _ hmem)

theorem foldl_pickTop_const {a : Suggestion} :
    ∀ (l : List Suggestion), (∀ x ∈ l, x = a) → l.foldl pickTop (some a) = some a := by
  intro l
  induction l with
  | nil => intro _; rfl
  | cons x xs ih =>
    intro hall
    have hx : x = a := hall x (List.mem_cons_self _ _)
    subst hx
    simp only [List.foldl_cons]
    have hstep : pickTop (some x) x = some x := ite_self _
    rw [hstep]
    exact ih (fun y hy => hall y (List.mem_cons_of_mem _ hy))

theorem mem_selectResults {v : Verbosity} {results : List Suggestion} {s : Suggestion}
    (h : s ∈ selectResults v results) : s ∈ results := by
  unfold selectResults at h
  split at h
  · simp at h
  · match v with
    | .Top =>
      simp only at h
      cases hfold : (results.filter (fun r => r.distance = minDist results)).foldl pickTop none with
      | none => rw [hfold] at h; simp [Option.toList] at h
      | some b =>
        rw [hfold] at h
        have hs : s = b := by simpa [Option.toList] using h
        rw [hs]
        rcases foldl_pickTop_mem _ none b hfold with habs | hmem
        · exact absurd habs (by simp)
        · exact List.mem_of_mem_filter hmem
    | .Closest =>
      simp only at h
      have := (sortS_perm leFreq _).mem_iff.mp h
      exact List.mem_of_mem_filter this
    | .All =>
      simp only at h
      exact (sortS_perm leAll _).mem_iff.mp h

theorem selectResults_map_term_nodup {v : Verbosity} {results : List Suggestion}
    (h : (results.map Suggestion.term).Nodup) :
    ((selectResults v results).map Suggestion.term).Nodup := by
  unfold selectResults
  split
  · simp
  · match v with
    | .Top =>
      cases hfold : (results.filter (fun r => r.distance = minDist results)).foldl pickTop none with
      | none => simp [hfold, Option.toList]
      | some b => simp [hfold, Option.toList]
    | .Closest =>
      dsimp only
      have hperm := (sortS_perm leFreq (results.filter
        (fun r => r.distance = minDist results))).map Suggestion.term
      refine hperm.symm.nodup ?_
      exact ((List.filter_sublist results).map Suggestion.term).nodup h
    | .All =>
      dsimp only
      have hperm := (sortS_perm leAll results).map Suggestion.term
      exact hperm.symm.nodup h

theorem selectResults_perm {v : Verbosity} {r₁ r₂ : List Suggestion}
    (hv : v = Verbosity.All ∨ v = Verbosity.Closest) (h : r₁.Perm r₂) :
    (selectResults v r₁).Perm (selectResults v r₂) := by
  by_cases h₁ : r₁ = []
  · subst h₁
    have h₂ : r₂ = [] := h.symm.eq_nil
    subst h₂
    exact List.Perm.refl _
  · have h₂ : r₂ ≠ [] := by
      intro hc
      subst hc
      exact h₁ h.eq_nil
    unfold selectResults
    rw [if_neg h₁, if_neg h₂, minDist_perm h]
    rcases hv with rfl | rfl
    · simp only
      exact ((sortS_perm leAll r₁).trans h).trans (sortS_perm leAll r₂).symm
    · simp only
      refine ((sortS_perm leFreq _).trans ?_).trans (sortS_perm leFreq _).symm
      exact h.filter _

theorem selectTop_all_eq {a : Suggestion} {rest : List Suggestion}
    (ha : a.distance = 0) (hall : ∀ x ∈ a :: rest, x.distance = 0 → x = a) :
    selectResults .Top (a :: rest) = [a] := by
  unfold selectResults
  rw [if_neg (by simp)]
  simp only
  rw [minDist_cons_zero ha]
  have hfilter : (a :: rest).filter (fun r => r.distance = 0) =
      a :: rest.filter (fun r => r.distance = 0) := by
    rw [List.filter_cons_of_pos (by simp [ha])]
  rw [hfilter]
  simp only [List.foldl_cons]
  have hstep : pickTop none a = some a := rfl
  rw [hstep, foldl_pickTop_const]
  · rfl
  · intro x hx
    have hxr : x ∈ rest := List.mem_of_mem_filter hx
    have hx0 : x.distance = 0 := by
      have := List.of_mem_filter hx
      simpa using this
    exact hall x (List.mem_cons_of_mem _ hxr) hx0

/-! ### Deletion reachability (for stating the probe-depth bound) -/

/-- One single-character deletion, on Unicode scalar values. -/
def DelStep (a b : Str) : Prop := ∃ u v c, a = u ++ c :: v ∧ b = u ++ v

/-- DelReach k a b: b is obtained from a by exactly k single-character
deletions. -/
def DelReach : Nat → Str → Str → Prop
  | 0, a, b => a = b
  | k + 1, a, b => ∃ m, DelStep a m ∧ DelReach k m b

/-! ### Panic-freedom of the expansion step on reachable stores -/

theorem expandPush_ok {st : SymSpell} {term : Str} {f : Nat} (hinv : StoreInv st)
    (hdict : st.dictionary term = some f) (d : Nat) :
    expandPush (min d st.max_distance) term = .ok () := by
  unfold expandPush
  split
  · have hN : 0 < st.max_distance := by
      have h2 : 0 < min d st.max_distance := by
        have := And.right (by assumption : 1 < byteLen term ∧ 0 < min d st.max_distance)
        exact this
      omega
    have hok := hinv.2.2.1 term (by rw [hdict]; rfl) hN
    cases ho : oneDels term with
    | error er => rw [ho] at hok; simp [Except.isOk, Except.toBool] at hok
    | ok ts => rfl
  · rfl

/-- Field-wise characterisation of a suggestion. -/
theorem suggestion_eq {s : Suggestion} {t : Str} {f d : Nat}
    (h1 : s.term = t) (h2 : s.frequency = f) (h3 : s.distance = d) :
    s = { term := t, frequency := f, distance := d } := by
  cases s
  simp only at h1 h2 h3
  rw [h1, h2, h3]

/-! ### Claim theorems -/

/-- C3: during lookup with effective distance e = min(requested, configured),
every deletion variant probed against the index is obtainable from the query
term by at most e single-character deletions.  (The source's expansion loop
evaluates its range 0..queue.len() once, on the initial singleton queue, so
only the query term itself — deletion depth 0 — is ever probed.) -/
theorem C3_probe_depth_bounded (st : SymSpell) (term : Str) (d : Nat) :
    ∀ var ∈ probedVariants term, ∃ k, k ≤ min d st.max_distance ∧ DelReach k term var := by
  intro var hv
  rcases List.mem_singleton.mp hv with rfl
  exact ⟨0, Nat.zero_le _, rfl⟩

theorem C3_witness :
    ("ab".toList ∈ probedVariants ("ab".toList)) ∧
    (∃ k, k ≤ min 2 (SymSpell.new 2).max_distance ∧ DelReach k ("ab".toList) ("ab".toList)) :=
  ⟨List.mem_singleton.mpr rfl,
    C3_probe_depth_bounded (SymSpell.new 2) ("ab".toList) 2 ("ab".toList)
      (List.mem_singleton.mpr rfl)⟩

/-- C7: on every reachable store, if the query term is a dictionary key with
frequency f then Top lookup returns exactly the one suggestion
(term, f, 0), for every candidate-set iteration order. -/
theorem C7_exact_match_top {st : SymSpell} {term : Str} {f : Nat} {order : List Str} (d : Nat)
    (hre : Reachable st) (hord : ValidEnum st term order)
    (hdict : st.dictionary term = some f) :
    st.lookupOrd term d .Top order =
      .ok [{ term := term, frequency := f, distance := 0 }] := by
  have hinv := reachable_inv hre
  have hne : term ≠ [] := by
    intro hc
    subst hc
    rw [hinv.2.2.2] at hdict
    cases hdict
  unfold SymSpell.lookupOrd
  rw [if_neg hne]
  dsimp only
  rw [expandPush_ok hinv hdict d]
  dsimp only
  rw [hdict]
  dsimp only
  congr 1
  show selectResults .Top ({ term := term, frequency := f, distance := 0 } ::
    verifyLoop st.dictionary term (min d st.max_distance) order []) = _
  apply selectTop_all_eq rfl
  intro x hx hx0
  rcases List.mem_cons.mp hx with rfl | hxv
  · rfl
  · have hm := verifyLoop_mem order [] x hxv
    have hteq : term = x.term := (damerau_eq_zero_iff term x.term).mp (by rw [← hm.2.1, hx0])
    have hfreq : x.frequency = f := by
      rw [hm.2.2.2, ← hteq, hdict]
      rfl
    exact suggestion_eq hteq.symm hfreq hx0

/-- C6: on every reachable store, for every query, distance, verbosity and
candidate iteration order, the result list contains at most one suggestion
per distinct term. -/
theorem C6_no_duplicate_terms {st : SymSpell} {term : Str} {d : Nat} {v : Verbosity}
    {order : List Str} {res : List Suggestion}
    (hre : Reachable st) (hord : ValidEnum st term order)
    (hok : st.lookupOrd term d v order = .ok res) :
    (res.map Suggestion.term).Nodup := by
  have hinv := reachable_inv hre
  unfold SymSpell.lookupOrd at hok
  by_cases hne : term = []
  · rw [if_pos hne] at hok
    cases hok
    simp
  · rw [if_neg hne] at hok
    dsimp only at hok
    cases hexp : expandPush (min d st.max_distance) term with
    | error er => rw [hexp] at hok; cases hok
    | ok u =>
      rw [hexp] at hok
      dsimp only at hok
      have hordnd : order.Nodup := hord.symm.nodup (List.nodup_dedup _)
      have hmemorder : ∀ c ∈ order, c ∈ st.deletes term := by
        intro c hc
        have h1 : c ∈ (candidateSet st term).dedup := hord.mem_iff.mp hc
        rwa [List.mem_dedup, candidateSet_eq] at h1
      have hvterms : ((verifyLoop st.dictionary term (min d st.max_distance) order []).map
          Suggestion.term).Nodup :=
        (verifyLoop_terms_sublist order []).nodup hordnd
      cases hd : st.dictionary term with
      | none =>
        rw [hd] at hok
        dsimp only at hok
        cases hok
        exact selectResults_map_term_nodup (by simpa using hvterms)
      | some f =>
        rw [hd] at hok
        dsimp only at hok
        cases hok
        apply selectResults_map_term_nodup
        have hterm_not : term ∉ (verifyLoop st.dictionary term (min d st.max_distance)
            order []).map Suggestion.term := by
          intro hmem
          rcases List.mem_map.mp hmem with ⟨s, hs, hst⟩
          have hm := verifyLoop_mem order [] s hs
          have hcd : s.term ∈ st.deletes term := hmemorder _ hm.1
          have hlen := hinv.2.1 term s.term hcd
          rw [hst] at hlen
          omega
        simpa using List.nodup_cons.mpr ⟨hterm_not, hvterms⟩

/-- C8: every suggestion returned in All mode has distance at most
min(requested distance, configured maximum), and a requested distance above
the maximum is silently capped: lookup behaves identically to a lookup with
the capped distance. -/
theorem C8_distance_bound {st : SymSpell} {term : Str} (d : Nat) (v : Verbosity)
    {order : List Str} {res : List Suggestion}
    (hok : st.lookupOrd term d .All order = .ok res) :
    (∀ s ∈ res, s.distance ≤ min d st.max_distance) ∧
    st.lookupOrd term d v order = st.lookupOrd term (min d st.max_distance) v order := by
  constructor
  · intro s hs
    unfold SymSpell.lookupOrd at hok
    split at hok
    · cases hok
      simp at hs
    · dsimp only at hok
      cases hexp : expandPush (min d st.max_distance) term with
      | error er => rw [hexp] at hok; cases hok
      | ok u =>
        rw [hexp] at hok
        dsimp only at hok
        cases hok
        have hs' := mem_selectResults hs
        rcases List.mem_append.mp hs' with hex | hver
        · cases hd : st.dictionary term with
          | none => rw [hd] at hex; simp at hex
          | some f =>
            rw [hd] at hex
            simp only [List.mem_singleton] at hex
            rw [hex]
            exact Nat.zero_le _
        · exact (verifyLoop_mem order [] s hver).2.2.1
  · unfold SymSpell.lookupOrd
    rw [show min (min d st.max_distance) st.max_distance = min d st.max_distance by omega]

/-- C10: on every reachable store, every word in any candidate set of the
deletion index is a dictionary key; consequently every candidate enumerated
during lookup has a present dictionary entry, so the 0 frequency default is
never used. -/
theorem C10_index_dict_consistency {st : SymSpell} (hre : Reachable st) :
    (∀ v w, w ∈ st.deletes v → (st.dictionary w).isSome) ∧
    (∀ term order, ValidEnum st term order → ∀ c ∈ order, (st.dictionary c).isSome) := by
  have hinv := reachable_inv hre
  refine ⟨hinv.1, ?_⟩
  intro term order hord c hc
  have h1 : c ∈ (candidateSet st term).dedup := hord.mem_iff.mp hc
  rw [List.mem_dedup, candidateSet_eq] at h1
  exact hinv.1 term c h1

deriving instance DecidableEq for Except

/-! ### Concrete reachable stores used as witnesses -/

/-- The store obtained by loading ab:5 and cb:5 with maximum distance 1. -/
def stTie : SymSpell :=
  match load_iter (SymSpell.new 1) [("ab".toList, 5), ("cb".toList, 5)] with
  | .ok st => st
  | .error _ => SymSpell.new 0

theorem stTie_reachable : Reachable stTie :=
  Reachable.load (SymSpell.new 1) [("ab".toList, 5), ("cb".toList, 5)] stTie
    (Reachable.new 1) rfl

/-- The store obtained by loading world:1 with maximum distance 2. -/
def stWorld : SymSpell :=
  match load_iter (SymSpell.new 2) [("world".toList, 1)] with
  | .ok st => st
  | .error _ => SymSpell.new 0

theorem stWorld_reachable : Reachable stWorld :=
  Reachable.load (SymSpell.new 2) [("world".toList, 1)] stWorld
    (Reachable.new 2) rfl

/-- C4 counterexample: the candidates hash set {ab, cb} for query b admits
both iteration orders; with equal distances and equal frequencies, Top
returns whichever candidate the (per-call, freshly seeded) hash iteration
yields first, so two lookups with identical arguments need not agree. -/
theorem C4_counterexample :
    ValidEnum stTie ("b".toList) ["ab".toList, "cb".toList] ∧
    ValidEnum stTie ("b".toList) ["cb".toList, "ab".toList] ∧
    stTie.lookupOrd ("b".toList) 1 .Top ["ab".toList, "cb".toList] ≠
      stTie.lookupOrd ("b".toList) 1 .Top ["cb".toList, "ab".toList] := by
  refine ⟨by decide, by decide, by decide⟩

/-- C4 amended: lookup is a pure function of the store, the arguments and
the candidate iteration order; for All and Closest any two valid orders give
permutation-equal results (Top may return either of two equal-distance,
equal-frequency candidates, as the counterexample shows). -/
theorem C4_amended {st : SymSpell} {term : Str} {d : Nat} {v : Verbosity}
    {o₁ o₂ : List Str} {l₁ l₂ : List Suggestion}
    (hv : v = Verbosity.All ∨ v = Verbosity.Closest)
    (h₁ : ValidEnum st term o₁) (h₂ : ValidEnum st term o₂)
    (hok₁ : st.lookupOrd term d v o₁ = .ok l₁)
    (hok₂ : st.lookupOrd term d v o₂ = .ok l₂) :
    l₁.Perm l₂ := by
  unfold SymSpell.lookupOrd at hok₁ hok₂
  by_cases hne : term = []
  · rw [if_pos hne] at hok₁ hok₂
    cases hok₁
    cases hok₂
    exact List.Perm.refl _
  · rw [if_neg hne] at hok₁ hok₂
    dsimp only at hok₁ hok₂
    cases hexp : expandPush (min d st.max_distance) term with
    | error er => rw [hexp] at hok₁; cases hok₁
    | ok u =>
      rw [hexp] at hok₁ hok₂
      dsimp only at hok₁ hok₂
      cases hok₁
      cases hok₂
      apply selectResults_perm hv
      apply List.Perm.append_left
      have hnd₁ : o₁.Nodup := h₁.symm.nodup (List.nodup_dedup _)
      have hnd₂ : o₂.Nodup := h₂.symm.nodup (List.nodup_dedup _)
      rw [verifyLoop_eq_verifyAll o₁ [] hnd₁ (by intro c hc; simp),
        verifyLoop_eq_verifyAll o₂ [] hnd₂ (by intro c hc; simp)]
      exact verifyAll_perm (h₁.trans h₂.symm)

theorem C4_amended_witness :
    stTie.lookupOrd ("b".toList) 1 .All ["ab".toList, "cb".toList] =
      .ok [{ term := "ab".toList, frequency := 5, distance := 1 },
           { term := "cb".toList, frequency := 5, distance := 1 }] ∧
    stTie.lookupOrd ("b".toList) 1 .All ["cb".toList, "ab".toList] =
      .ok [{ term := "cb".toList, frequency := 5, distance := 1 },
           { term := "ab".toList, frequency := 5, distance := 1 }] ∧
    ([{ term := "ab".toList, frequency := 5, distance := 1 },
      { term := "cb".toList, frequency := 5, distance := 1 }] : List Suggestion).Perm
      [{ term := "cb".toList, frequency := 5, distance := 1 },
       { term := "ab".toList, frequency := 5, distance := 1 }] :=
  ⟨by decide, by decide,
    @C4_amended stTie ("b".toList) 1 .All ["ab".toList, "cb".toList]
      ["cb".toList, "ab".toList]
      [{ term := "ab".toList, frequency := 5, distance := 1 },
       { term := "cb".toList, frequency := 5, distance := 1 }]
      [{ term := "cb".toList, frequency := 5, distance := 1 },
       { term := "ab".toList, frequency := 5, distance := 1 }]
      (Or.inl rfl) (by decide) (by decide) (by decide) (by decide)⟩

/-- C2: the two stores are not interchangeable.  Built from the duplicate-free
nonempty entries a:1, ab:5 with maximum distance 1, the mutable store's
lookup of the dictionary word a in All mode also returns the nearby word ab,
while the embedded store's lookup returns only the exact match (its code
early-returns on a dictionary hit). -/
theorem C2_store_divergence :
    (load_iter (SymSpell.new 1) [("a".toList, 1), ("ab".toList, 5)]).bind
        (fun st => st.lookup ("a".toList) 1 .All) =
      .ok [{ term := "a".toList, frequency := 1, distance := 0 },
           { term := "ab".toList, frequency := 5, distance := 1 }] ∧
    (include_dictionary [("a".toList, 1), ("ab".toList, 5)] 1 100000).bind
        (fun est => est.lookup ("a".toList) 1 .All) =
      .ok [{ term := "a".toList, frequency := 1, distance := 0 }] := by
  exact ⟨by decide, by decide⟩

/-- C5: lookup and load panic on non-ASCII input.  The query é (U+00E9, two
UTF-8 bytes) makes the byte-indexed String::remove hit a non-boundary index:
lookup on any store with maximum distance 1 panics, and loading the word é
panics inside generate_deletes. -/
theorem C5_nonascii_panics :
    SymSpell.lookup (SymSpell.new 1) ("é".toList) 1 .Top = .error () ∧
    load_iter (SymSpell.new 1) [("é".toList, 1)] = .error () := by
  exact ⟨by decide, rfl⟩

/-- C1: duplicate-frequency policy divergence.  Batch-building the embedded
store from apple:2 and apple:3 sums the frequencies to 5, while loading the
same two entries into the mutable store overwrites, leaving 3. -/
theorem C1_duplicate_frequency_policy :
    (include_dictionary [("apple".toList, 2), ("apple".toList, 3)] 2 100000).map
        (fun est => est.frequency ("apple".toList)) = .ok (some 5) ∧
    (load_iter (SymSpell.new 2) [("apple".toList, 2), ("apple".toList, 3)]).map
        (fun st => st.frequency ("apple".toList)) = .ok (some 3) := by
  exact ⟨by decide, by decide⟩

/-! ### The specification's Damerau-Levenshtein distance (for C9) -/

/-- One single-character edit, as enumerated by the spec's glossary:
insertion, deletion, substitution, or adjacent transposition. -/
def EditStep (a b : Str) : Prop :=
  (∃ u v c, a = u ++ v ∧ b = u ++ c :: v) ∨
  (∃ u v c, a = u ++ c :: v ∧ b = u ++ v) ∨
  (∃ u v c d, a = u ++ c :: v ∧ b = u ++ d :: v) ∨
  (∃ u v c d, a = u ++ c :: d :: v ∧ b = u ++ d :: c :: v)

/-- EditReach n a b: b is obtained from a by exactly n single edits. -/
def EditReach : Nat → Str → Str → Prop
  | 0, a, b => a = b
  | k + 1, a, b => ∃ m, EditStep a m ∧ EditReach k m b

/-- Specification definition, from the spec's glossary: the (unrestricted)
Damerau-Levenshtein distance is the minimum number of single-character
insertions, deletions, substitutions, or adjacent transpositions
transforming one string into the other. -/
noncomputable def dlSpec (a b : Str) : Nat := sInf {n | EditReach n a b}

theorem editReach_two_ca_abc : EditReach 2 (['c', 'a'] : Str) ['a', 'b', 'c'] := by
  refine ⟨['a', 'c'], ?_, ['a', 'b', 'c'], ?_, rfl⟩
  · exact Or.inr (Or.inr (Or.inr ⟨[], [], 'c', 'a', rfl, rfl⟩))
  · exact Or.inl ⟨['a'], ['c'], 'b', rfl, rfl⟩

theorem not_editReach_one_ca_abc : ¬ EditReach 1 (['c', 'a'] : Str) ['a', 'b', 'c'] := by
  rintro ⟨m, hstep, hm⟩
  have hm' : m = ['a', 'b', 'c'] := hm
  subst hm'
  rcases hstep with ⟨u, v, c, h1, h2⟩ | ⟨u, v, c, h1, h2⟩ |
    ⟨u, v, c, d, h1, h2⟩ | ⟨u, v, c, d, h1, h2⟩
  · rcases u with _ | ⟨x, _ | ⟨y, _ | ⟨z, u⟩⟩⟩ <;> simp_all
    · subst h1
      exact absurd h2.2 (by decide)
    · exact absurd (h1.1.trans h2.1.symm) (by decide)
    · exact absurd (h1.1.trans h2.1.symm) (by decide)
  · have e1 := congrArg List.length h1
    have e2 := congrArg List.length h2
    simp at e1 e2
    omega
  · have e1 := congrArg List.length h1
    have e2 := congrArg List.length h2
    simp at e1 e2
    omega
  · have e1 := congrArg List.length h1
    have e2 := congrArg List.length h2
    simp at e1 e2
    omega

theorem dlSpec_ca_abc : dlSpec ['c', 'a'] ['a', 'b', 'c'] = 2 := by
  unfold dlSpec
  apply le_antisymm
  · exact csInf_le (OrderBot.bddBelow _)
      (show (2 : Nat) ∈ {n | EditReach n (['c', 'a'] : Str) ['a', 'b', 'c']} from
        editReach_two_ca_abc)
  · apply le_csInf
      (show Set.Nonempty {n | EditReach n (['c', 'a'] : Str) ['a', 'b', 'c']} from
        ⟨2, editReach_two_ca_abc⟩)
    intro b hb
    rcases b with _ | _ | n
    · have heq : (['c', 'a'] : Str) = ['a', 'b', 'c'] := hb
      exact absurd heq (by decide)
    · exact absurd hb not_editReach_one_ca_abc
    · omega

/-- C9 counterexample: the code computes the restricted (optimal string
alignment) distance, which is 3 on (ca, abc), while the Damerau-Levenshtein
distance as the spec defines it (minimum number of single-character edits)
is 2: ca → ac (transposition) → abc (insertion).  So the claimed equality
with the clamped Damerau-Levenshtein distance fails. -/
theorem C9_counterexample :
    damerau_levenshtein ['c', 'a'] ['a', 'b', 'c'] = 3 ∧
    dlSpec ['c', 'a'] ['a', 'b', 'c'] = 2 ∧
    damerau_levenshtein ['c', 'a'] ['a', 'b', 'c'] ≠
      min 255 (dlSpec ['c', 'a'] ['a', 'b', 'c']) := by
  refine ⟨by decide, dlSpec_ca_abc, ?_⟩
  rw [dlSpec_ca_abc]
  decide

/-- C9 amended: damerau_levenshtein computes the restricted
(optimal-string-alignment) variant clamped at 255, not the unrestricted
Damerau-Levenshtein distance; it is symmetric, zero exactly on equal
strings, bounded by 255, and gives distance 1 (not 2) on (ab, ba). -/
theorem C9_amended :
    (∀ a b, damerau_levenshtein a b = damerau_levenshtein b a) ∧
    (∀ a b, damerau_levenshtein a b = 0 ↔ a = b) ∧
    damerau_levenshtein ("ab".toList) ("ba".toList) = 1 ∧
    (∀ a b, damerau_levenshtein a b ≤ 255) :=
  ⟨damerau_comm, damerau_eq_zero_iff, by decide, damerau_le_255⟩

/-! ### Witnesses instantiating the conditional claim theorems -/

theorem C7_witness :
    stWorld.dictionary ("world".toList) = some 1 ∧
    stWorld.lookupOrd ("world".toList) 2 .Top [] =
      .ok [{ term := "world".toList, frequency := 1, distance := 0 }] :=
  ⟨by decide, C7_exact_match_top 2 stWorld_reachable (by decide) (by decide)⟩

theorem C6_witness :
    stTie.lookupOrd ("b".toList) 1 .All ["ab".toList, "cb".toList] =
      .ok [{ term := "ab".toList, frequency := 5, distance := 1 },
           { term := "cb".toList, frequency := 5, distance := 1 }] ∧
    (([{ term := "ab".toList, frequency := 5, distance := 1 },
        { term := "cb".toList, frequency := 5, distance := 1 }] : List Suggestion).map
      Suggestion.term).Nodup :=
  ⟨by decide,
    @C6_no_duplicate_terms stTie ("b".toList) 1 .All ["ab".toList, "cb".toList]
      [{ term := "ab".toList, frequency := 5, distance := 1 },
       { term := "cb".toList, frequency := 5, distance := 1 }]
      stTie_reachable (by decide) (by decide)⟩

theorem C8_witness :
    ({ term := "ab".toList, frequency := 5, distance := 1 } : Suggestion).distance ≤
      min 1 stTie.max_distance ∧
    stTie.lookupOrd ("b".toList) 1 .Top ["ab".toList, "cb".toList] =
      stTie.lookupOrd ("b".toList) (min 1 stTie.max_distance) .Top
        ["ab".toList, "cb".toList] :=
  ⟨(@C8_distance_bound stTie ("b".toList) 1 .Top ["ab".toList, "cb".toList]
      [{ term := "ab".toList, frequency := 5, distance := 1 },
       { term := "cb".toList, frequency := 5, distance := 1 }] (by decide)).1
      { term := "ab".toList, frequency := 5, distance := 1 } (by decide),
   (@C8_distance_bound stTie ("b".toList) 1 .Top ["ab".toList, "cb".toList]
      [{ term := "ab".toList, frequency := 5, distance := 1 },
       { term := "cb".toList, frequency := 5, distance := 1 }] (by decide)).2⟩

theorem C10_witness : (stWorld.dictionary ("world".toList)).isSome :=
  (C10_index_dict_consistency stWorld_reachable).1 ("worl".toList) ("world".toList)
    (by decide)

end SymSpellRS
